import Mathlib

set_option maxHeartbeats 1000000

/-!
Shallow embedding of src/client.js (firebase-client-prototype).

The identifier generator `LoopFirebaseServer.makeId`, the record
formatting helper `_formatRecord`, the write path `update`/`delete`,
the event emitter `emit`, the connect lifecycle of
`FirebaseClient.connect`, and the range-bound computation of
`requestChat` are translated into executable Lean definitions below.
Randomness (Math.random) and the push-channel callbacks are modelled as
explicit parameters; promises are modelled as settle-once optional
outcomes.
-/

/-- Fixed 64-symbol alphabet used by makeId, ordered to match ASCII order:
digits, uppercase, underscore, lowercase, tilde. -/
def CHARS : String := "0123456789ABCDEFGHIJKLMNOPQRSTUVWXYZ_abcdefghijklmnopqrstuvwxyz~"

/-- Model of JavaScript String.charAt on CHARS at a natural-number index:
a one-character list when the index is in range, the empty list otherwise
(charAt returns the empty string out of range). -/
def charAt (n : Nat) : List Char := (CHARS.data.drop n).take 1

/-- Map a list of base-64 digit values through the alphabet, concatenating
the resulting characters (models the charAt-and-append loops of makeId). -/
def encode (ds : List Nat) : List Char := (ds.map charAt).flatten

/-- Big-endian base-64 digits produced by the 8-iteration loop of makeId:
each step prepends time mod 64 and divides time by 64.  `digitsBE n t`
is the list of the n least-significant base-64 digits of t, most
significant first. -/
def digitsBE : Nat → Nat → List Nat
  | 0, _ => []
  | n + 1, t => digitsBE n (t / 64) ++ [t % 64]

/-- Little-endian form of the same-millisecond suffix increment of makeId:
the JavaScript loop scans lastRandChars from index 11 downward, resetting
63-valued slots to 0, then increments the first non-63 slot.  When every
slot is 63 the loop runs off the front (JavaScript increments index -1,
which stores NaN at a property the output loop never reads) and the kept
slots are all 0. -/
def incLE : List Nat → List Nat
  | [] => []
  | a :: rest => if a = 63 then 0 :: incLE rest else (a + 1) :: rest

/-- Big-endian suffix increment, as performed by makeId on lastRandChars. -/
def incSuffix (l : List Nat) : List Nat := (incLE l.reverse).reverse

/-- Generator state attached to makeId: the timestamp of the previous call
and the 12 suffix slots kept from the previous call. -/
structure GenState where
  lastTime : Nat
  lastRandChars : List Nat
deriving DecidableEq, Repr

/-- Model of LoopFirebaseServer.makeId.  `rand` models the 12 draws of
Math.floor(Math.random() * 64) used when the timestamp is new.  The
result is the returned identifier (or the thrown error message) paired
with the updated generator state; in the source lastTime is assigned
before the timestamp-range check, so the state on that error keeps the
old suffix but the new time. -/
def makeId (st : GenState) (time : Nat) (rand : List Nat) :
    Except String String × GenState :=
  let duplicateTime := time = st.lastTime
  if time / 64 ^ 8 ≠ 0 then
    (Except.error "We should have converted the entire timestamp.",
     { st with lastTime := time })
  else
    let timeStampChars := encode (digitsBE 8 time)
    let suffix := if duplicateTime then incSuffix st.lastRandChars else rand
    let idChars := timeStampChars ++ encode suffix
    let stNew : GenState := ⟨time, suffix⟩
    if idChars.length ≠ 20 then
      (Except.error "Length should be 20.", stNew)
    else
      (Except.ok (String.mk idChars), stNew)

/-- A valid draw of the 12 random slots: what Math.floor(Math.random()*64)
twelve times can produce. -/
def ValidRand (rand : List Nat) : Prop :=
  rand.length = 12 ∧ ∀ x ∈ rand, x < 64

/-- Well-formed generator state: 12 suffix slots, each a base-64 digit. -/
def GenWF (st : GenState) : Prop := ValidRand st.lastRandChars

/-- Model of the two makeId calls performed by LoopFirebaseServer.requestChat
while building its startAt and endAt query bounds, in source evaluation
order (the startAt bound first).  Nat subtraction makes startTime - 1 equal
to the Math.max(0, startTime - 1) of the source; r1 and r2 model the random
draws available to the two calls.  If the first call throws, the second
never runs. -/
def requestChatBounds (st : GenState) (startTime endTime : Nat)
    (r1 r2 : List Nat) : Except String (String × String) × GenState :=
  match makeId st (startTime - 1) r1 with
  | (Except.error e, st1) => (Except.error e, st1)
  | (Except.ok a, st1) =>
    match makeId st1 (endTime + 1) r2 with
    | (Except.error e, st2) => (Except.error e, st2)
    | (Except.ok b, st2) => (Except.ok (a, b), st2)

/-- Model of FirebaseClient.emit and LoopFirebaseServer._emit: run the
handlers registered for an event in order, each receiving the single
payload; a handler either returns a value or throws.  The JavaScript
for-of loop has no try/catch, so a thrown exception aborts the loop and
propagates: the model returns the values produced by the handlers that
ran, in order, together with the first thrown error, if any. -/
def emit {α β ε : Type} (handlers : List (α → Except ε β)) (payload : α) :
    List β × Option ε :=
  match handlers with
  | [] => ([], none)
  | h :: rest =>
    match h payload with
    | Except.error e => ([], some e)
    | Except.ok b =>
      let r := emit rest payload
      (b :: r.1, r.2)

/-- Push-channel lifecycle callbacks relevant to connect: the onopen
callback and the onerror callback carrying an error value. -/
inductive SseEvent where
  | opened
  | errored (e : Nat)
deriving DecidableEq, Repr

/-- State tracked by the callbacks installed by FirebaseClient.connect:
the resolved flag, the settle-once outcome of the promise returned by
connect (a promise keeps its first settlement), the notifications emitted
through emit, and whether the EventSource reference is still set (onopen
and onerror never clear it). -/
structure ConnectState where
  resolved : Bool
  settled : Option (Except Nat Unit)
  emitted : List (String × Nat)
  sseOpen : Bool

/-- One callback invocation of the connect logic: onopen sets the
resolved flag and resolves the promise; onerror rejects the promise when
the resolved flag is still clear and otherwise emits an error
notification, leaving the promise and the channel untouched. -/
def connectStep (s : ConnectState) : SseEvent → ConnectState
  | SseEvent.opened =>
    { s with resolved := true,
             settled := match s.settled with
                        | some x => some x
                        | none => some (Except.ok ()) }
  | SseEvent.errored e =>
    if s.resolved then { s with emitted := s.emitted ++ [("error", e)] }
    else
      { s with settled := match s.settled with
                          | some x => some x
                          | none => some (Except.error e) }

/-- State right after connect installed its callbacks: promise pending,
not resolved, nothing emitted, EventSource reference set. -/
def connectInit : ConnectState := ⟨false, none, [], true⟩

/-- Process a sequence of push-channel callbacks from the fresh state. -/
def runConnect (evs : List SseEvent) : ConnectState :=
  evs.foldl connectStep connectInit

/-- Minimal JSON value model for record values and request bodies. -/
inductive Json where
  | null
  | str (s : String)
  | num (n : Int)
  | obj (fields : List (String × Json))

/-- The server-timestamp substitution marker sent by _update. -/
def serverValueTimestamp : Json := Json.obj [(".sv", Json.str "timestamp")]

/-- Whether a JavaScript value is exactly null (undefined is modelled as
none, null as some Json.null). -/
def isJsNull : Option Json → Bool
  | some Json.null => true
  | _ => false

/-- An HTTP point request as assembled by FirebaseClient._update: method,
the path the composite key is addressed at (URL formatting by _makeUrl is
transport-level and not modelled), and the stringified body fields. -/
structure HttpRequest where
  method : String
  path : String
  body : Option (List (String × Json))

/-- Model of FirebaseClient._update: the DELETE guard from the source,
then JSON.stringify of the body object.  JSON.stringify drops a property
whose value is undefined (none), so the value field is present only for
defined values, null included. -/
def clientUpdateReq (method : String) (path : String) (value : Option Json) :
    Except String HttpRequest :=
  if method == "DELETE" && ! isJsNull value then
    Except.error "No value expected for .delete()"
  else
    Except.ok ⟨method, path,
      some (("timestamp", serverValueTimestamp) ::
        (match value with
         | some v => [("value", v)]
         | none => []))⟩

/-- Model of LoopFirebaseServer.update: build the composite key and issue
a PUT through the client (put delegates to _update with method PUT). -/
def serverUpdateReq (type : String) (id : String) (value : Option Json) :
    Except String HttpRequest :=
  clientUpdateReq "PUT" (type ++ "!" ++ id) value

/-- Model of LoopFirebaseServer.delete: it delegates to update with the
value argument omitted, that is undefined. -/
def serverDeleteReq (type : String) (id : String) : Except String HttpRequest :=
  serverUpdateReq type id none

/-- JavaScript property lookup on an object modelled as a field list. -/
def getField (obj : List (String × Json)) (k : String) : Option Json :=
  match obj with
  | [] => none
  | p :: rest => if p.1 = k then some p.2 else getField rest k

/-- JavaScript property assignment: overwrite the existing property in
place, otherwise append it (models one Object.assign copy step). -/
def setField (obj : List (String × Json)) (k : String) (v : Json) :
    List (String × Json) :=
  match obj with
  | [] => [(k, v)]
  | p :: rest => if p.1 = k then (k, v) :: rest else p :: setField rest k v

/-- The four characters the JavaScript dot metacharacter refuses to
match (line terminators). -/
def isLineTerminator (c : Char) : Bool :=
  c == '\n' || c == '\r' || c == '\u2028' || c == '\u2029'

/-- Model of the pattern match in _formatRecord.  The pattern anchors
both ends of the key, captures one or more non-separator characters (a
character class, which also matches line terminators), requires the
literal separator, then captures one or more characters via the dot,
which does not match line terminators.  Greediness cannot move the
separator, so the first capture is exactly the part before the first
separator.  A failed match leaves the source destructuring a null match
result, which throws; that is modelled as none. -/
def matchKey (key : String) : Option (String × String) :=
  let t := key.data.takeWhile (fun c => c != '!')
  match key.data.dropWhile (fun c => c != '!') with
  | [] => none
  | _ :: i =>
    if t.isEmpty || i.isEmpty || i.any isLineTerminator then none
    else some (String.mk t, String.mk i)

/-- Model of LoopFirebaseServer._formatRecord: split the composite key on
the first separator and merge the id and type fields into the record
value (Object.assign sets id first, then type). -/
def formatRecord (key : String) (record : List (String × Json)) :
    Option (List (String × Json)) :=
  match matchKey key with
  | none => none
  | some (t, i) =>
    some (setField (setField record "id" (Json.str i)) "type" (Json.str t))

/-- Comparator passed to Array.prototype.sort by requestRoomData: the
source comparator returns the Boolean b.type === "participant", which the
SortCompare step of Array.prototype.sort coerces to 1 (true) or 0
(false). -/
def sortCompareRoom (_a b : List (String × Json)) : Int :=
  match getField b "type" with
  | some (Json.str t) => if t = "participant" then 1 else 0
  | _ => 0

/-! Helper lemmas about the alphabet, digits and encoding. -/

lemma CHARS_data_length : CHARS.data.length = 64 := rfl

lemma charAt_eq_get (n : Nat) (h : n < CHARS.data.length) :
    charAt n = [CHARS.data.get ⟨n, h⟩] := by
  unfold charAt
  rw [List.drop_eq_getElem_cons h]
  rfl

lemma encode_cons (d : Nat) (ds : List Nat) :
    encode (d :: ds) = charAt d ++ encode ds := rfl

lemma encode_length {ds : List Nat} (h : ∀ d ∈ ds, d < 64) :
    (encode ds).length = ds.length := by
  induction ds with
  | nil => rfl
  | cons d ds ih =>
    have hd : d < CHARS.data.length := by
      rw [CHARS_data_length]; exact h d (by simp)
    rw [encode_cons, List.length_append, charAt_eq_get d hd,
      ih (fun x hx => h x (by simp [hx]))]
    simp [Nat.add_comm]

lemma encode_mem {ds : List Nat} {c : Char} (hc : c ∈ encode ds) :
    c ∈ CHARS.data := by
  unfold encode at hc
  rw [List.mem_flatten] at hc
  obtain ⟨piece, hp, hcp⟩ := hc
  rw [List.mem_map] at hp
  obtain ⟨d, _, rfl⟩ := hp
  unfold charAt at hcp
  exact List.mem_of_mem_drop (List.mem_of_mem_take hcp)

lemma digitsBE_length (n t : Nat) : (digitsBE n t).length = n := by
  induction n generalizing t with
  | zero => rfl
  | succ n ih => simp [digitsBE, ih]

lemma digitsBE_lt (n t : Nat) : ∀ d ∈ digitsBE n t, d < 64 := by
  induction n generalizing t with
  | zero => intro d hd; simp [digitsBE] at hd
  | succ n ih =>
    intro d hd
    simp only [digitsBE, List.mem_append, List.mem_singleton] at hd
    rcases hd with hd | rfl
    · exact ih (t / 64) d hd
    · omega

/-! Helper lemmas about lexicographic order. -/

lemma lex_append_of_lex {α : Type} {r : α → α → Prop} :
    ∀ {as bs : List α}, List.Lex r as bs → as.length = bs.length →
      ∀ u v : List α, List.Lex r (as ++ u) (bs ++ v) := by
  intro as bs h
  induction h with
  | nil => intro hlen; simp at hlen
  | rel hr => intro _ u v; exact List.Lex.rel hr
  | cons h ih => intro hlen u v; exact List.Lex.cons (ih (by simpa using hlen) u v)

lemma lex_append_same {α : Type} {r : α → α → Prop} (ps : List α)
    {us vs : List α} (h : List.Lex r us vs) :
    List.Lex r (ps ++ us) (ps ++ vs) := by
  induction ps with
  | nil => exact h
  | cons p ps ih => exact List.Lex.cons ih

lemma digitsBE_lex {n t1 t2 : Nat} (h12 : t1 < t2) (h2 : t2 < 64 ^ n) :
    List.Lex (· < ·) (digitsBE n t1) (digitsBE n t2) := by
  induction n generalizing t1 t2 with
  | zero => simp [pow_zero] at h2; omega
  | succ n ih =>
    have hq : t1 / 64 ≤ t2 / 64 := Nat.div_le_div_right (Nat.le_of_lt h12)
    rcases Nat.lt_or_eq_of_le hq with hlt | heq
    · have h2' : t2 / 64 < 64 ^ n := by
        rw [Nat.div_lt_iff_lt_mul (by omega : 0 < 64)]
        calc t2 < 64 ^ (n + 1) := h2
          _ = 64 ^ n * 64 := by ring
      have hlex := ih hlt h2'
      show List.Lex _ (digitsBE n (t1 / 64) ++ [t1 % 64])
        (digitsBE n (t2 / 64) ++ [t2 % 64])
      exact lex_append_of_lex hlex (by simp [digitsBE_length]) _ _
    · have hm : t1 % 64 < t2 % 64 := by omega
      show List.Lex _ (digitsBE n (t1 / 64) ++ [t1 % 64])
        (digitsBE n (t2 / 64) ++ [t2 % 64])
      rw [heq]
      exact lex_append_same _ (List.Lex.rel hm)

lemma CHARS_sorted : List.Pairwise (· < ·) CHARS.data := by
  decide

lemma CHARS_get_mono {a b : Nat} (hab : a < b) (hb : b < 64) :
    CHARS.data.get ⟨a, by rw [CHARS_data_length]; omega⟩ <
      CHARS.data.get ⟨b, by rw [CHARS_data_length]; omega⟩ :=
  List.pairwise_iff_get.mp CHARS_sorted _ _ hab

lemma encode_lex : ∀ {ds es : List Nat}, List.Lex (· < ·) ds es →
    (∀ d ∈ ds, d < 64) → (∀ e ∈ es, e < 64) →
    List.Lex (· < ·) (encode ds) (encode es) := by
  intro ds es h
  induction h with
  | @nil e es =>
    intro _ hes
    have he : e < CHARS.data.length := by
      rw [CHARS_data_length]; exact hes e (by simp)
    rw [encode_cons, charAt_eq_get e he]
    exact List.Lex.nil
  | @rel d ds e es hr =>
    intro hds hes
    have hd : d < CHARS.data.length := by
      rw [CHARS_data_length]; exact hds d (by simp)
    have he : e < CHARS.data.length := by
      rw [CHARS_data_length]; exact hes e (by simp)
    rw [encode_cons, encode_cons, charAt_eq_get d hd, charAt_eq_get e he]
    exact List.Lex.rel (CHARS_get_mono hr (by rw [CHARS_data_length] at he; exact he))
  | @cons d ds es h ih =>
    intro hds hes
    rw [encode_cons, encode_cons]
    exact lex_append_same _
      (ih (fun x hx => hds x (by simp [hx])) (fun x hx => hes x (by simp [hx])))

lemma string_lt_of_lex {s t : String} (h : List.Lex (· < ·) s.data t.data) :
    s < t := by
  rw [String.lt_iff_toList_lt]
  exact h

/-! Helper lemmas about the suffix increment. -/

lemma incLE_cons_63 (rest : List Nat) : incLE (63 :: rest) = 0 :: incLE rest := by
  simp [incLE]

lemma incLE_cons {a : Nat} (rest : List Nat) (h : a ≠ 63) :
    incLE (a :: rest) = (a + 1) :: rest := by
  simp [incLE, h]

lemma incLE_length (l : List Nat) : (incLE l).length = l.length := by
  induction l with
  | nil => rfl
  | cons a rest ih => by_cases h : a = 63 <;> simp [incLE, h, ih]

lemma incSuffix_length (l : List Nat) : (incSuffix l).length = l.length := by
  simp [incSuffix, incLE_length]

lemma incLE_lt {l : List Nat} (h : ∀ x ∈ l, x < 64) : ∀ x ∈ incLE l, x < 64 := by
  induction l with
  | nil => simp [incLE]
  | cons a rest ih =>
    by_cases ha : a = 63
    · simp only [incLE, if_pos ha]
      intro x hx
      rcases List.mem_cons.mp hx with rfl | hx
      · omega
      · exact ih (fun y hy => h y (List.mem_cons_of_mem a hy)) x hx
    · simp only [incLE, if_neg ha]
      intro x hx
      rcases List.mem_cons.mp hx with rfl | hx
      · have := h a (by simp); omega
      · exact h x (List.mem_cons_of_mem a hx)

lemma incSuffix_lt {l : List Nat} (h : ∀ x ∈ l, x < 64) :
    ∀ x ∈ incSuffix l, x < 64 := by
  intro x hx
  rw [incSuffix, List.mem_reverse] at hx
  exact incLE_lt (fun y hy => h y (List.mem_reverse.mp hy)) x hx

lemma lex_incLE_rev : ∀ {l : List Nat}, (∃ x ∈ l, x ≠ 63) →
    List.Lex (· < ·) l.reverse (incLE l).reverse := by
  intro l
  induction l with
  | nil => intro h; simp at h
  | cons a rest ih =>
    intro h
    by_cases ha : a = 63
    · subst ha
      have hrest : ∃ x ∈ rest, x ≠ 63 := by
        obtain ⟨x, hx, hne⟩ := h
        rcases List.mem_cons.mp hx with rfl | hx
        · exact absurd rfl hne
        · exact ⟨x, hx, hne⟩
      rw [incLE_cons_63, List.reverse_cons, List.reverse_cons]
      exact lex_append_of_lex (ih hrest) (by simp [incLE_length]) _ _
    · rw [incLE_cons rest ha, List.reverse_cons, List.reverse_cons]
      exact lex_append_same _ (List.Lex.rel (Nat.lt_succ_self a))

lemma lex_incSuffix {l : List Nat} (h : ∃ x ∈ l, x ≠ 63) :
    List.Lex (· < ·) l (incSuffix l) := by
  have h2 := lex_incLE_rev (l := l.reverse) (by simpa using h)
  simpa [incSuffix] using h2

lemma exists_ne_of_ne_replicate {l : List Nat} (hlen : l.length = 12)
    (hne : l ≠ List.replicate 12 63) : ∃ x ∈ l, x ≠ 63 := by
  by_contra hall
  push_neg at hall
  exact hne (by rw [List.eq_replicate_iff]; exact ⟨hlen, hall⟩)

/-! Helper lemmas about the branches of makeId. -/

lemma makeId_eq_ok {st : GenState} {time : Nat} {rand s : List Nat}
    (hs : (if time = st.lastTime then incSuffix st.lastRandChars else rand) = s)
    (hr : time < 64 ^ 8)
    (hlen : (encode (digitsBE 8 time) ++ encode s).length = 20) :
    makeId st time rand =
      (Except.ok (String.mk (encode (digitsBE 8 time) ++ encode s)),
       ⟨time, s⟩) := by
  simp only [makeId, hs, Nat.div_eq_of_lt hr]
  simp [hlen]

lemma makeId_err_range {st : GenState} {time : Nat} {rand : List Nat}
    (hr : 64 ^ 8 ≤ time) :
    makeId st time rand =
      (Except.error "We should have converted the entire timestamp.",
       { st with lastTime := time }) := by
  have hne : time / 64 ^ 8 ≠ 0 :=
    Nat.ne_of_gt (Nat.div_pos hr (by positivity))
  simp only [makeId]
  rw [if_pos hne]

lemma makeId_err_len {st : GenState} {time : Nat} {rand : List Nat}
    (hr : time < 64 ^ 8)
    (hlen : (encode (digitsBE 8 time) ++
      encode (if time = st.lastTime then incSuffix st.lastRandChars else rand)).length ≠ 20) :
    makeId st time rand =
      (Except.error "Length should be 20.",
       ⟨time, if time = st.lastTime then incSuffix st.lastRandChars else rand⟩) := by
  rw [List.length_append] at hlen
  simp only [makeId, Nat.div_eq_of_lt hr]
  simp [hlen]

lemma makeId_ok_elim {st : GenState} {time : Nat} {rand : List Nat} {id : String}
    (h : (makeId st time rand).1 = Except.ok id) :
    time < 64 ^ 8 ∧
    id = String.mk (encode (digitsBE 8 time) ++
        encode (if time = st.lastTime then incSuffix st.lastRandChars else rand)) ∧
    (makeId st time rand).2 =
      ⟨time, if time = st.lastTime then incSuffix st.lastRandChars else rand⟩ ∧
    (encode (digitsBE 8 time) ++
        encode (if time = st.lastTime then incSuffix st.lastRandChars else rand)).length
      = 20 := by
  by_cases hr : time < 64 ^ 8
  · by_cases hlen : (encode (digitsBE 8 time) ++
        encode (if time = st.lastTime then incSuffix st.lastRandChars else rand)).length = 20
    · rw [makeId_eq_ok rfl hr hlen] at h ⊢
      simp only [Except.ok.injEq] at h
      exact ⟨hr, h.symm, rfl, hlen⟩
    · rw [makeId_err_len hr hlen] at h
      simp at h
  · rw [makeId_err_range (Nat.le_of_not_lt hr)] at h
    simp at h

/-! Helper lemmas about emit. -/

lemma emit_all_ok {α β ε : Type} :
    ∀ (gs : List (α → Except ε β)) (oks : List β) (p : α),
      gs.map (fun g => g p) = oks.map Except.ok → emit gs p = (oks, none) := by
  intro gs
  induction gs with
  | nil =>
    intro oks p h
    cases oks with
    | nil => rfl
    | cons o os => simp at h
  | cons g gs ih =>
    intro oks p h
    cases oks with
    | nil => simp at h
    | cons o os =>
      simp only [List.map_cons, List.cons.injEq] at h
      obtain ⟨h1, h2⟩ := h
      simp [emit, h1, ih os p h2]

lemma emit_append_throw {α β ε : Type} :
    ∀ (gs : List (α → Except ε β)) (oks : List β) (p : α)
      (h : α → Except ε β) (e : ε) (rest : List (α → Except ε β)),
      gs.map (fun g => g p) = oks.map Except.ok → h p = Except.error e →
      emit (gs ++ h :: rest) p = (oks, some e) := by
  intro gs
  induction gs with
  | nil =>
    intro oks p h e rest hok herr
    cases oks with
    | nil => simp [emit, herr]
    | cons o os => simp at hok
  | cons g gs ih =>
    intro oks p h e rest hok herr
    cases oks with
    | nil => simp at hok
    | cons o os =>
      simp only [List.map_cons, List.cons.injEq] at hok
      obtain ⟨h1, h2⟩ := hok
      simp [emit, h1, ih os p h e rest h2 herr]

/-! Claim C1. -/

/-- C1: for timestamps t1 < t2 (both accepted by makeId), every identifier
returned at t1 sorts lexicographically strictly before every identifier
returned at t2, whatever the generator states and the random or sequence
suffix slots of the two calls are. -/
theorem makeId_sorts_by_time
    {st1 st2 : GenState} {t1 t2 : Nat} {r1 r2 : List Nat} {id1 id2 : String}
    (h1 : (makeId st1 t1 r1).1 = Except.ok id1)
    (h2 : (makeId st2 t2 r2).1 = Except.ok id2)
    (h12 : t1 < t2) : id1 < id2 := by
  obtain ⟨hr1, hid1, -, -⟩ := makeId_ok_elim h1
  obtain ⟨hr2, hid2, -, -⟩ := makeId_ok_elim h2
  subst hid1
  subst hid2
  apply string_lt_of_lex
  exact lex_append_of_lex
    (encode_lex (digitsBE_lex h12 hr2) (digitsBE_lt 8 t1) (digitsBE_lt 8 t2))
    (by rw [encode_length (digitsBE_lt 8 t1), encode_length (digitsBE_lt 8 t2),
      digitsBE_length, digitsBE_length])
    _ _

/-- Witness for C1 at t1 = 1000, t2 = 2000 with fixed suffix draws. -/
theorem makeId_sorts_by_time_witness :
    ("000000Fd777777777777" : String) < "000000VG777777777777" :=
  @makeId_sorts_by_time ⟨0, List.replicate 12 0⟩ ⟨0, List.replicate 12 0⟩
    1000 2000 (List.replicate 12 7) (List.replicate 12 7)
    "000000Fd777777777777" "000000VG777777777777" rfl rfl (by omega)

/-! Claim C2. -/

/-- C2 counterexample: an initial call at t = 1000 can draw the all-63
suffix; the next call at the same millisecond wraps the suffix around to
twelve zero slots, and the identifier it returns is lexicographically
smaller than the previous one, not strictly greater as claimed. -/
theorem makeId_same_millis_counterexample :
    makeId ⟨0, List.replicate 12 0⟩ 1000 (List.replicate 12 63) =
      (Except.ok "000000Fd~~~~~~~~~~~~", ⟨1000, List.replicate 12 63⟩) ∧
    makeId ⟨1000, List.replicate 12 63⟩ 1000 (List.replicate 12 0) =
      (Except.ok "000000Fd000000000000", ⟨1000, List.replicate 12 0⟩) ∧
    ¬ (("000000Fd~~~~~~~~~~~~" : String) < "000000Fd000000000000") :=
  ⟨rfl, rfl, by rw [String.lt_iff_toList_lt]; decide⟩

/-- C2 (amended): after an initial call at timestamp t, a further call at
t returns an identifier with the same 8-character time prefix whose
suffix slots are the previous suffix incremented as a base-64 big-endian
counter, and — provided the previous suffix is not the all-63 one, which
wraps around, see the counterexample — the new identifier is
lexicographically strictly greater than the previous one. -/
theorem makeId_same_millis_increments
    {st0 st1 st2 : GenState} {t : Nat} {r0 r1 : List Nat} {idA idB : String}
    (hWF : GenWF st0) (hr0 : ValidRand r0)
    (hA : makeId st0 t r0 = (Except.ok idA, st1))
    (hB : makeId st1 t r1 = (Except.ok idB, st2))
    (hno : st1.lastRandChars ≠ List.replicate 12 63) :
    idA < idB ∧
    st2.lastRandChars = incSuffix st1.lastRandChars ∧
    idB.data.take 8 = idA.data.take 8 ∧
    st2.lastTime = t := by
  have hA1 : (makeId st0 t r0).1 = Except.ok idA := by rw [hA]
  have hB1 : (makeId st1 t r1).1 = Except.ok idB := by rw [hB]
  obtain ⟨hrt, hidA, hstA, -⟩ := makeId_ok_elim hA1
  obtain ⟨-, hidB, hstB, -⟩ := makeId_ok_elim hB1
  rw [hA] at hstA
  rw [hB] at hstB
  have hs1 : st1 = ⟨t, if t = st0.lastTime then incSuffix st0.lastRandChars else r0⟩ := hstA
  have hs2 : st2 = ⟨t, if t = st1.lastTime then incSuffix st1.lastRandChars else r1⟩ := hstB
  have hs1time : st1.lastTime = t := by rw [hs1]
  have hs1valid : st1.lastRandChars.length = 12 ∧ ∀ x ∈ st1.lastRandChars, x < 64 := by
    rw [hs1]
    by_cases hdup : t = st0.lastTime
    · rw [if_pos hdup]
      exact ⟨by rw [incSuffix_length]; exact hWF.1, incSuffix_lt hWF.2⟩
    · rw [if_neg hdup]
      exact hr0
  have hdupB : t = st1.lastTime := hs1time.symm
  rw [if_pos hdupB] at hidB hs2
  have hsfxA : (if t = st0.lastTime then incSuffix st0.lastRandChars else r0)
      = st1.lastRandChars := by rw [hs1]
  rw [hsfxA] at hidA
  have hex : ∃ x ∈ st1.lastRandChars, x ≠ 63 :=
    exists_ne_of_ne_replicate hs1valid.1 hno
  have hPlen : (encode (digitsBE 8 t)).length = 8 := by
    rw [encode_length (digitsBE_lt 8 t), digitsBE_length]
  refine ⟨?_, ?_, ?_, ?_⟩
  · subst hidA
    subst hidB
    apply string_lt_of_lex
    exact lex_append_same _
      (encode_lex (lex_incSuffix hex) hs1valid.2 (incSuffix_lt hs1valid.2))
  · rw [hs2]
  · subst hidA
    subst hidB
    show (encode (digitsBE 8 t) ++ _).take 8 = (encode (digitsBE 8 t) ++ _).take 8
    rw [List.take_append_of_le_length hPlen.ge,
      List.take_append_of_le_length hPlen.ge]
  · rw [hs2]

/-- Witness for C2 (amended): two calls at t = 1000, the first drawing
suffix slots all 7. -/
theorem makeId_same_millis_increments_witness :
    ("000000Fd777777777777" : String) < "000000Fd777777777778" ∧
    (⟨1000, [7, 7, 7, 7, 7, 7, 7, 7, 7, 7, 7, 8]⟩ : GenState).lastRandChars =
      incSuffix (⟨1000, List.replicate 12 7⟩ : GenState).lastRandChars ∧
    ("000000Fd777777777778" : String).data.take 8 =
      ("000000Fd777777777777" : String).data.take 8 ∧
    (⟨1000, [7, 7, 7, 7, 7, 7, 7, 7, 7, 7, 7, 8]⟩ : GenState).lastTime = 1000 :=
  @makeId_same_millis_increments ⟨0, List.replicate 12 0⟩
    ⟨1000, List.replicate 12 7⟩ ⟨1000, [7, 7, 7, 7, 7, 7, 7, 7, 7, 7, 7, 8]⟩
    1000 (List.replicate 12 7) (List.replicate 12 9)
    "000000Fd777777777777" "000000Fd777777777778"
    ⟨by decide, by decide⟩ ⟨by decide, by decide⟩ rfl rfl (by decide)

/-! Claim C3. -/

/-- C3 counterexample: with a first handler that throws and a second
handler registered for the same event, emit stops after the first
handler: no result from the second handler is produced, so one handler
throwing does prevent the subsequent handlers of that emit from
running. -/
theorem emit_throw_counterexample :
    emit [fun _ : Nat => (Except.error 0 : Except Nat Nat),
          fun n : Nat => Except.ok (n + 1)] 5 = ([], some 0) ∧
    (emit [fun _ : Nat => (Except.error 0 : Except Nat Nat),
           fun n : Nat => Except.ok (n + 1)] 5).1.length ≠ 2 :=
  ⟨rfl, by decide⟩

/-- C3 (amended): emit invokes the registered handlers synchronously in
registration order, each with the single payload; when every handler
returns normally they all run and their results appear in order, but a
throwing handler aborts the loop: the handlers after the first throwing
one are never invoked and its exception propagates. -/
theorem emit_runs_in_order_until_throw {α β ε : Type}
    (gs : List (α → Except ε β)) (oks : List β) (p : α)
    (hok : gs.map (fun g => g p) = oks.map Except.ok) :
    emit gs p = (oks, none) ∧
    ∀ (h : α → Except ε β) (e : ε) (rest : List (α → Except ε β)),
      h p = Except.error e → emit (gs ++ h :: rest) p = (oks, some e) :=
  ⟨emit_all_ok gs oks p hok,
   fun h e rest herr => emit_append_throw gs oks p h e rest hok herr⟩

/-- Witness for C3 (amended): two succeeding handlers run in order; with
a throwing handler inserted, only the handlers before it run. -/
theorem emit_runs_in_order_until_throw_witness :
    emit [fun n : Nat => (Except.ok (n + 1) : Except Nat Nat),
          fun n : Nat => Except.ok (n * 2)] 5 = ([6, 10], none) ∧
    emit ([fun n : Nat => (Except.ok (n + 1) : Except Nat Nat),
           fun n : Nat => Except.ok (n * 2)] ++
          (fun _ : Nat => (Except.error 7 : Except Nat Nat)) ::
            [fun n : Nat => Except.ok n]) 5 = ([6, 10], some 7) := by
  have h := emit_runs_in_order_until_throw
    [fun n : Nat => (Except.ok (n + 1) : Except Nat Nat),
     fun n : Nat => Except.ok (n * 2)] [6, 10] 5 rfl
  exact ⟨h.1, h.2 (fun _ => Except.error 7) 7 [fun n => Except.ok n] rfl⟩

/-! Claim C4. -/

lemma incSuffix_all63 : incSuffix (List.replicate 12 63) = List.replicate 12 0 := by
  decide

lemma encode_replicate0 : encode (List.replicate 12 0) = List.replicate 12 '0' := by
  decide

/-- C4 counterexample: a same-millisecond call that finds all 12 suffix
slots at 63 does not signal any error: makeId returns a further
identifier whose suffix has wrapped around to twelve 0 slots. -/
theorem makeId_exhausted_returns_id :
    makeId ⟨2000, List.replicate 12 63⟩ 2000 (List.replicate 12 9) =
      (Except.ok "000000VG000000000000", ⟨2000, List.replicate 12 0⟩) := rfl

/-- C4 (amended): the all-63 overflow is not detected by makeId: a
same-millisecond call finding every suffix slot at 63 returns normally,
with the same time prefix and the suffix wrapped around to twelve 0
slots, so the generated sequence stops being increasing instead of
failing. -/
theorem makeId_exhausted_wraps {st : GenState} {t : Nat} {rand : List Nat}
    (hdup : st.lastTime = t) (ht : t < 64 ^ 8)
    (h63 : st.lastRandChars = List.replicate 12 63) :
    makeId st t rand =
      (Except.ok (String.mk (encode (digitsBE 8 t) ++ List.replicate 12 '0')),
       ⟨t, List.replicate 12 0⟩) := by
  have hs : (if t = st.lastTime then incSuffix st.lastRandChars else rand)
      = List.replicate 12 0 := by
    rw [if_pos hdup.symm, h63, incSuffix_all63]
  have hlen : (encode (digitsBE 8 t) ++ encode (List.replicate 12 0)).length = 20 := by
    rw [List.length_append, encode_length (digitsBE_lt 8 t), digitsBE_length,
      encode_replicate0]
    rfl
  rw [makeId_eq_ok hs ht hlen, encode_replicate0]

/-- Witness for C4 (amended) at t = 500. -/
theorem makeId_exhausted_wraps_witness :
    makeId ⟨500, List.replicate 12 63⟩ 500 (List.replicate 12 1) =
      (Except.ok (String.mk (encode (digitsBE 8 500) ++ List.replicate 12 '0')),
       ⟨500, List.replicate 12 0⟩) :=
  @makeId_exhausted_wraps ⟨500, List.replicate 12 63⟩ 500 (List.replicate 12 1)
    rfl (by decide) rfl

/-! Claim C5. -/

/-- C5: with a well-formed generator state and a valid random draw,
makeId succeeds exactly when the timestamp is below 64 ^ 8, and every
identifier it returns has exactly 20 characters, all drawn from the
fixed 64-symbol alphabet. -/
theorem makeId_range_and_shape
    {st : GenState} {time : Nat} {rand : List Nat}
    (hWF : GenWF st) (hrand : ValidRand rand) :
    ((∃ id, (makeId st time rand).1 = Except.ok id) ↔ time < 64 ^ 8) ∧
    ∀ id, (makeId st time rand).1 = Except.ok id →
      id.length = 20 ∧ ∀ c ∈ id.data, c ∈ CHARS.data := by
  have hsfx : (if time = st.lastTime then incSuffix st.lastRandChars else rand).length = 12
      ∧ ∀ x ∈ (if time = st.lastTime then incSuffix st.lastRandChars else rand), x < 64 := by
    by_cases hdup : time = st.lastTime
    · rw [if_pos hdup]
      exact ⟨by rw [incSuffix_length]; exact hWF.1, incSuffix_lt hWF.2⟩
    · rw [if_neg hdup]
      exact hrand
  have hlen : (encode (digitsBE 8 time) ++
      encode (if time = st.lastTime then incSuffix st.lastRandChars else rand)).length
        = 20 := by
    rw [List.length_append, encode_length (digitsBE_lt 8 time), digitsBE_length,
      encode_length hsfx.2, hsfx.1]
  constructor
  · constructor
    · rintro ⟨id, hid⟩
      exact (makeId_ok_elim hid).1
    · intro hr
      exact ⟨_, by rw [makeId_eq_ok rfl hr hlen]⟩
  · intro id hid
    obtain ⟨hr, hideq, -, -⟩ := makeId_ok_elim hid
    subst hideq
    constructor
    · rw [String.length_mk]
      exact hlen
    · intro c hc
      rcases List.mem_append.mp hc with hc | hc
      · exact encode_mem hc
      · exact encode_mem hc

/-- Witness for C5 at time = 1000. -/
theorem makeId_range_and_shape_witness :
    ((∃ id, (makeId ⟨5, List.replicate 12 3⟩ 1000 (List.replicate 12 4)).1
        = Except.ok id) ↔ 1000 < 64 ^ 8) ∧
    ∀ id, (makeId ⟨5, List.replicate 12 3⟩ 1000 (List.replicate 12 4)).1
        = Except.ok id →
      id.length = 20 ∧ ∀ c ∈ id.data, c ∈ CHARS.data :=
  @makeId_range_and_shape ⟨5, List.replicate 12 3⟩ 1000 (List.replicate 12 4)
    ⟨by decide, by decide⟩ ⟨by decide, by decide⟩

/-! Claim C7. -/

/-- C7: LoopFirebaseServer.delete issues exactly the write that update
makes with an undefined value: a PUT addressed at the same composite
key, whose stringified body carries the server-timestamp marker and no
value field (JSON.stringify drops the undefined property), so the stored
value is removed while the composite-key convention is preserved. -/
theorem delete_is_update_undefined (type : String) (id : String) :
    serverDeleteReq type id = serverUpdateReq type id none ∧
    serverDeleteReq type id =
      Except.ok ⟨"PUT", type ++ "!" ++ id,
        some [("timestamp", serverValueTimestamp)]⟩ ∧
    getField [("timestamp", serverValueTimestamp)] "value" = none :=
  ⟨rfl, rfl, rfl⟩

/-! Helper lemmas for the connect lifecycle. -/

lemma connectStep_errored_resolved (s : ConnectState) (e : Nat) :
    (connectStep s (SseEvent.errored e)).resolved = s.resolved := by
  by_cases hr : s.resolved <;> simp [connectStep, hr]

lemma foldl_settled_some {x : Except Nat Unit} :
    ∀ (evs : List SseEvent) (s : ConnectState), s.settled = some x →
      (evs.foldl connectStep s).settled = some x := by
  intro evs
  induction evs with
  | nil => intro s h; exact h
  | cons ev evs ih =>
    intro s h
    rw [List.foldl_cons]
    apply ih
    cases ev with
    | opened => simp [connectStep, h]
    | errored e => by_cases hr : s.resolved <;> simp [connectStep, hr, h]

lemma foldl_sseOpen : ∀ (evs : List SseEvent) (s : ConnectState),
    (evs.foldl connectStep s).sseOpen = s.sseOpen := by
  intro evs
  induction evs with
  | nil => intro s; rfl
  | cons ev evs ih =>
    intro s
    rw [List.foldl_cons, ih]
    cases ev with
    | opened => rfl
    | errored e => by_cases hr : s.resolved <;> simp [connectStep, hr]

lemma foldl_resolved_of_mem : ∀ (evs : List SseEvent) (s : ConnectState),
    SseEvent.opened ∈ evs ∨ s.resolved = true →
    (evs.foldl connectStep s).resolved = true := by
  intro evs
  induction evs with
  | nil =>
    intro s h
    rcases h with h | h
    · simp at h
    · exact h
  | cons ev evs ih =>
    intro s h
    rw [List.foldl_cons]
    cases ev with
    | opened => exact ih _ (Or.inr rfl)
    | errored e =>
      apply ih
      rcases h with h | h
      · rcases List.mem_cons.mp h with h2 | h2
        · exact absurd h2 (by simp)
        · exact Or.inl h2
      · right
        rw [connectStep_errored_resolved]
        exact h

/-! Claim C6. -/

/-- C6: an error reported by the push channel before its first open
callback makes the deferred result of connect fail — with that error
when it is the first report, and with the first pre-open error in
general — while an error reported after an open callback leaves the
deferred result exactly as it was, is delivered instead as an
asynchronous error notification through the emitter, and leaves the
channel reference set (the connection open). -/
theorem connect_error_before_or_after_open
    (e : Nat) (rest evs pre post : List SseEvent) :
    ((runConnect (SseEvent.errored e :: rest)).settled = some (Except.error e)) ∧
    (SseEvent.opened ∉ pre →
      ∃ f, (runConnect (pre ++ SseEvent.errored e :: post)).settled
        = some (Except.error f)) ∧
    (SseEvent.opened ∈ evs →
      (runConnect (evs ++ [SseEvent.errored e])).settled = (runConnect evs).settled ∧
      (runConnect (evs ++ [SseEvent.errored e])).emitted
        = (runConnect evs).emitted ++ [("error", e)] ∧
      (runConnect (evs ++ [SseEvent.errored e])).sseOpen = true) := by
  refine ⟨?_, ?_, ?_⟩
  · show ((SseEvent.errored e :: rest).foldl connectStep connectInit).settled = _
    rw [List.foldl_cons]
    exact foldl_settled_some rest _ rfl
  · intro hpre
    cases pre with
    | nil =>
      refine ⟨e, ?_⟩
      show ((SseEvent.errored e :: post).foldl connectStep connectInit).settled = _
      rw [List.foldl_cons]
      exact foldl_settled_some post _ rfl
    | cons ev pre =>
      cases ev with
      | opened => exact absurd (by simp) hpre
      | errored x =>
        refine ⟨x, ?_⟩
        show ((SseEvent.errored x :: (pre ++ SseEvent.errored e :: post)).foldl
          connectStep connectInit).settled = _
        rw [List.foldl_cons]
        exact foldl_settled_some _ _ rfl
  · intro hmem
    have hres : (runConnect evs).resolved = true :=
      foldl_resolved_of_mem evs connectInit (Or.inl hmem)
    have hfold : runConnect (evs ++ [SseEvent.errored e])
        = connectStep (runConnect evs) (SseEvent.errored e) := by
      show (evs ++ [SseEvent.errored e]).foldl connectStep connectInit = _
      rw [List.foldl_append]
      rfl
    rw [hfold]
    refine ⟨?_, ?_, ?_⟩
    · simp [connectStep, hres]
    · simp [connectStep, hres]
    · simp only [connectStep, hres, if_true]
      exact foldl_sseOpen evs connectInit

/-- Witness for C6: an error as first event rejects the deferred result;
an error after the open leaves it untouched, emits an error
notification and keeps the channel set. -/
theorem connect_error_before_or_after_open_witness :
    (runConnect [SseEvent.errored 7]).settled = some (Except.error 7) ∧
    (∃ f, (runConnect ([SseEvent.errored 3] ++ SseEvent.errored 7 :: [])).settled
      = some (Except.error f)) ∧
    (runConnect ([SseEvent.opened] ++ [SseEvent.errored 7])).settled
      = (runConnect [SseEvent.opened]).settled ∧
    (runConnect ([SseEvent.opened] ++ [SseEvent.errored 7])).emitted
      = (runConnect [SseEvent.opened]).emitted ++ [("error", 7)] ∧
    (runConnect ([SseEvent.opened] ++ [SseEvent.errored 7])).sseOpen = true := by
  have h := connect_error_before_or_after_open 7 [] [SseEvent.opened]
    [SseEvent.errored 3] []
  have h3 := h.2.2 (by decide)
  exact ⟨h.1, h.2.1 (by decide), h3.1, h3.2.1, h3.2.2⟩

/-! Helper lemmas for record formatting. -/

lemma takeWhile_dropWhile_sep {xs ys : List Char} {y : Char}
    (hx : ∀ x ∈ xs, (x != '!') = true) (hy : (y != '!') = false) :
    (xs ++ y :: ys).takeWhile (fun c => c != '!') = xs ∧
    (xs ++ y :: ys).dropWhile (fun c => c != '!') = y :: ys := by
  induction xs with
  | nil => simp [List.takeWhile_cons, List.dropWhile_cons, hy]
  | cons x xs ih =>
    have hpx : (x != '!') = true := hx x (by simp)
    obtain ⟨iht, ihd⟩ := ih (fun z hz => hx z (by simp [hz]))
    constructor
    · show ((x :: (xs ++ y :: ys)).takeWhile fun c => c != '!') = x :: xs
      rw [List.takeWhile_cons, if_pos hpx, iht]
    · show ((x :: (xs ++ y :: ys)).dropWhile fun c => c != '!') = y :: ys
      rw [List.dropWhile_cons, if_pos hpx, ihd]

lemma getField_setField_same (obj : List (String × Json)) (k : String) (v : Json) :
    getField (setField obj k v) k = some v := by
  induction obj with
  | nil => simp [setField, getField]
  | cons p rest ih =>
    by_cases h : p.1 = k
    · simp [setField, h, getField]
    · simp [setField, h, getField, ih]

lemma getField_setField_ne (obj : List (String × Json)) (k w : String) (v : Json)
    (h : k ≠ w) : getField (setField obj k v) w = getField obj w := by
  induction obj with
  | nil => simp [setField, getField, h]
  | cons p rest ih =>
    by_cases hp : p.1 = k
    · simp [setField, hp, getField, h, hp ▸ h]
    · simp only [setField, if_neg hp, getField]
      by_cases hw : p.1 = w
      · rw [if_pos hw, if_pos hw]
      · rw [if_neg hw, if_neg hw, ih]

/-! Claim C8. -/

/-- C8 counterexample: the empty type contains no separator and the id 0
is non-empty, yet the composite key then starts with the separator, the
pattern requires at least one character before it, the match fails and
formatRecord throws (modelled as none) instead of producing a record
with those components. -/
theorem formatRecord_empty_type_counterexample :
    formatRecord ("" ++ "!" ++ "0") [] = none := rfl

/-- C8 (amended): for every non-empty type without the separator and
every non-empty id free of line terminators, the match splits the
composite key on the first separator into exactly the original type and
id — so re-deriving the composite key from the formatted record
reproduces the key — and the formatted record carries the components in
its type and id fields. -/
theorem formatRecord_round_trip
    (type : String) (id : String) (v : List (String × Json))
    (htne : type ≠ "") (hsep : '!' ∉ type.data)
    (hine : id ≠ "") (hterm : ∀ c ∈ id.data, isLineTerminator c = false) :
    matchKey (type ++ "!" ++ id) = some (type, id) ∧
    ∃ rec, formatRecord (type ++ "!" ++ id) v = some rec ∧
      getField rec "type" = some (Json.str type) ∧
      getField rec "id" = some (Json.str id) := by
  obtain ⟨td⟩ := type
  obtain ⟨ie⟩ := id
  have hdata : (String.mk td ++ "!" ++ String.mk ie).data = td ++ '!' :: ie := by
    rw [String.data_append, String.data_append]
    show td ++ ['!'] ++ ie = td ++ '!' :: ie
    rw [List.append_assoc]
    rfl
  have htd : td ≠ [] := fun h => htne (by rw [h])
  have hie : ie ≠ [] := fun h => hine (by rw [h])
  obtain ⟨ht, hd⟩ := @takeWhile_dropWhile_sep td ie '!'
    (fun x hx => by
      rw [bne_iff_ne]
      intro hxe
      exact hsep (hxe ▸ hx))
    (by simp)
  have hm : matchKey (String.mk td ++ "!" ++ String.mk ie)
      = some (String.mk td, String.mk ie) := by
    unfold matchKey
    rw [hdata, ht, hd]
    have hcond : ¬ ((td.isEmpty || ie.isEmpty || ie.any isLineTerminator) = true) := by
      simp only [Bool.or_eq_true, not_or]
      refine ⟨⟨?_, ?_⟩, ?_⟩
      · simpa [List.isEmpty_iff] using htd
      · simpa [List.isEmpty_iff] using hie
      · rw [Bool.not_eq_true, List.any_eq_false]
        intro x hx
        simp [hterm x hx]
    show (if (td.isEmpty || ie.isEmpty || ie.any isLineTerminator) = true then none
      else some (String.mk td, String.mk ie)) = some (String.mk td, String.mk ie)
    rw [if_neg hcond]
  refine ⟨hm, ?_⟩
  refine ⟨setField (setField v "id" (Json.str (String.mk ie))) "type"
    (Json.str (String.mk td)), ?_, ?_, ?_⟩
  · unfold formatRecord
    rw [hm]
  · exact getField_setField_same _ _ _
  · rw [getField_setField_ne _ _ _ _ (by decide)]
    exact getField_setField_same _ _ _

/-- Witness for C8 (amended) with type chat and id 1000A. -/
theorem formatRecord_round_trip_witness :
    matchKey ("chat" ++ "!" ++ "1000A") = some ("chat", "1000A") ∧
    ∃ rec, formatRecord ("chat" ++ "!" ++ "1000A") [] = some rec ∧
      getField rec "type" = some (Json.str "chat") ∧
      getField rec "id" = some (Json.str "1000A") :=
  formatRecord_round_trip "chat" "1000A" [] (by decide) (by decide) (by decide)
    (by decide)

/-! Claim C10. -/

lemma makeId_dup_independent {st : GenState} {t : Nat} (h : st.lastTime = t)
    (q1 q2 : List Nat) : makeId st t q1 = makeId st t q2 := by
  simp [makeId, h]

/-- C10: requestChat mutates the shared generator as a side effect of
building its range bounds: after a successful call the generator
lastTime equals endTime + 1 and the suffix slots have been redrawn from
the random draw of the endAt call — or incremented when endTime + 1
coincides with the clamped startTime - 1 — so a subsequent makeId call
at millisecond endTime + 1 takes the same-millisecond increment path:
its outcome no longer depends on a fresh random draw. -/
theorem requestChat_mutates_generator
    {st : GenState} {s e : Nat} {r1 r2 : List Nat} {a b : String} {st2 : GenState}
    (h : requestChatBounds st s e r1 r2 = (Except.ok (a, b), st2)) :
    st2.lastTime = e + 1 ∧
    (e + 1 ≠ s - 1 → st2.lastRandChars = r2) ∧
    (e + 1 = s - 1 → st2.lastRandChars =
      incSuffix (if s - 1 = st.lastTime then incSuffix st.lastRandChars else r1)) ∧
    ∀ q1 q2 : List Nat, makeId st2 (e + 1) q1 = makeId st2 (e + 1) q2 := by
  unfold requestChatBounds at h
  rcases hm1 : makeId st (s - 1) r1 with ⟨res1, stm⟩
  rw [hm1] at h
  cases res1 with
  | error e1 => simp at h
  | ok a1 =>
    dsimp only at h
    rcases hm2 : makeId stm (e + 1) r2 with ⟨res2, stn⟩
    rw [hm2] at h
    cases res2 with
    | error e2 => simp at h
    | ok b1 =>
      dsimp only at h
      simp only [Prod.mk.injEq, Except.ok.injEq] at h
      obtain ⟨-, hst⟩ := h
      subst hst
      have h1 : (makeId st (s - 1) r1).1 = Except.ok a1 := by rw [hm1]
      have h2 : (makeId stm (e + 1) r2).1 = Except.ok b1 := by rw [hm2]
      obtain ⟨-, -, hstm, -⟩ := makeId_ok_elim h1
      obtain ⟨-, -, hstn, -⟩ := makeId_ok_elim h2
      rw [hm1] at hstm
      rw [hm2] at hstn
      have hstmEq : stm = ⟨s - 1,
          if s - 1 = st.lastTime then incSuffix st.lastRandChars else r1⟩ := hstm
      have hstnEq : stn = ⟨e + 1,
          if e + 1 = stm.lastTime then incSuffix stm.lastRandChars else r2⟩ := hstn
      have hmt : stm.lastTime = s - 1 := by rw [hstmEq]
      refine ⟨by rw [hstnEq], ?_, ?_, ?_⟩
      · intro hne
        rw [hstnEq, hmt]
        simp [if_neg hne]
      · intro heq
        rw [hstnEq, hmt]
        rw [if_pos heq]
        simp only
        rw [hstmEq]
      · intro q1 q2
        exact makeId_dup_independent (by rw [hstnEq]) q1 q2

/-- Witness for C10: a call with startTime 5 and endTime 10 leaves the
generator at lastTime 11 with the second draw as suffix, and further
makeId calls at 11 ignore their random draw. -/
theorem requestChat_mutates_generator_witness :
    (⟨11, List.replicate 12 3⟩ : GenState).lastTime = 10 + 1 ∧
    (10 + 1 ≠ 5 - 1 → (⟨11, List.replicate 12 3⟩ : GenState).lastRandChars
      = List.replicate 12 3) ∧
    (10 + 1 = 5 - 1 → (⟨11, List.replicate 12 3⟩ : GenState).lastRandChars
      = incSuffix (if 5 - 1 = (⟨0, List.replicate 12 1⟩ : GenState).lastTime
          then incSuffix (⟨0, List.replicate 12 1⟩ : GenState).lastRandChars
          else List.replicate 12 2)) ∧
    ∀ q1 q2 : List Nat,
      makeId ⟨11, List.replicate 12 3⟩ (10 + 1) q1
        = makeId ⟨11, List.replicate 12 3⟩ (10 + 1) q2 :=
  @requestChat_mutates_generator ⟨0, List.replicate 12 1⟩ 5 10
    (List.replicate 12 2) (List.replicate 12 3)
    "00000004222222222222" "0000000B333333333333"
    ⟨11, List.replicate 12 3⟩ rfl

/-! Claim C9: supporting fact (the claim itself is settled outside the
embedding, because Array.prototype.sort leaves the order
implementation-defined for an inconsistent comparator). -/

/-- The comparator of requestRoomData is not a consistent comparison
function as soon as a participant record is compared with any other
record: it reports each of two participants as strictly after the other,
and a participant as simultaneously equal to and greater than a
non-participant, so the ECMAScript specification leaves the resulting
sort order implementation-defined. -/
lemma sortCompareRoom_inconsistent :
    sortCompareRoom [("type", Json.str "participant")]
      [("type", Json.str "participant")] = 1 ∧
    sortCompareRoom [("type", Json.str "chat")]
      [("type", Json.str "participant")] = 1 ∧
    sortCompareRoom [("type", Json.str "participant")]
      [("type", Json.str "chat")] = 0 :=
  ⟨rfl, rfl, rfl⟩
